import Mathlib

/-!
# JSON introspection and synthesis engine of `isp-clouds-test`

A shallow embedding of the core functions of `main.go` (and of the measuring
function of `handles_test.go`) together with the properties the specification
states about them.

Conventions of the embedding

* A decoded JSON value (`interface{}` as produced by `json.Unmarshal`) is a
  `Value`.  A Go `map[string]interface{}` is the list of its entries in the
  order in which a `range` loop visits them; theorems that speak about maps
  quantify over that order.
* `json.Unmarshal([]byte(s), &m)` applied to the content of a string node is
  not re-implemented inside the tree walkers: every string node carries the
  result of that call (`none` when it returns an error).
* Library functions (`strconv.ParseFloat`, float64 subtraction,
  `strconv.Atoi`, `json.Marshal`, the `%q` verb) are parameters.
* `rand.Int()` is a parameter `rnd : Nat → Nat`: `rnd i` is the value returned
  by the `i`-th call made during one run of `generateJSON`.
-/

namespace IspClouds

/-! ## Data model -/

/-- A decoded JSON node.  `string s doc` is the Go string `s`, with `doc` the
map that `json.Unmarshal([]byte(s), &jsonData)` produces for a
`map[string]interface{}` target (`none` when it reports an error; the nil
map obtained from the text `null` has no entries).
`object entries` lists the map entries in `range` order. -/
inductive Value where
  | null : Value
  | bool (b : Bool) : Value
  | number (x : ℚ) : Value
  | string (s : String) (doc : Option (List (String × Value))) : Value
  | array (elems : List Value) : Value
  | object (entries : List (String × Value)) : Value

/-- The float64 facilities of the Go library and runtime used by the search,
as parameters.  `parseFloat needle = some res` stands for
`strconv.ParseFloat(needle, FLOAT_PRECISION)` returning the finite value `res`
with a nil error (an error, an infinity or a NaN can never satisfy the
comparison of the source and is `none`); `sub` is float64 subtraction. -/
structure Float64Ops where
  parseFloat : String → Option ℚ
  sub : ℚ → ℚ → ℚ

/-- The local constant `EPS := 0.001` of `searchValueInJsonObject`.  As a
float64 it is the double nearest to `0.001`, which lies just above `1/1000`
with no double in between, so a float64 difference is below the one exactly
when it is below the other. -/
def EPS : ℚ := 0.001

/-- Go `strconv.FormatBool`. -/
def formatBool (b : Bool) : String := if b then "true" else "false"

/-! ## `searchValueInJsonObject` (main.go, lines 77-132) -/

mutual
/-- Embedding of `searchValueInJsonObject(object, needle, parentKey)`.  The
`default` branch (`log.Fatal`) is not reachable for a decoded JSON value and
has no counterpart. -/
def searchValueInJsonObject (fp : Float64Ops) :
    Value → String → String → List String
  | .null, needle, parentKey =>
      if needle = "null" then [parentKey] else []
  | .object entries, needle, _ => searchEntries fp entries needle
  | .string objectStr doc, needle, parentKey =>
      if objectStr = needle ∧ parentKey ≠ "" then [parentKey]
      else
        match doc with
        | some jsonData => searchEntries fp jsonData needle
        | none => []
  | .array elems, needle, _ => searchElems fp elems needle
  | .bool b, needle, parentKey =>
      if formatBool b = needle then [parentKey] else []
  | .number x, needle, parentKey =>
      match fp.parseFloat needle with
      | some res => if |fp.sub res x| < EPS then [parentKey] else []
      | none => []
/-- The loop `for k, v := range object.(map[string]interface{})`. -/
def searchEntries (fp : Float64Ops) :
    List (String × Value) → String → List String
  | [], _ => []
  | (k, v) :: rest, needle =>
      searchValueInJsonObject fp v needle k ++ searchEntries fp rest needle
/-- The loop `for _, elem := range object.([]interface{})`. -/
def searchElems (fp : Float64Ops) : List Value → String → List String
  | [], _ => []
  | elem :: rest, needle =>
      searchValueInJsonObject fp elem needle "" ++ searchElems fp rest needle
end

/-! ## `encodeJSONKeysArray` and the key listing (main.go, lines 42-53, 134-152) -/

/-- Embedding of `encodeJSONKeysArray`; `marshal` is `json.Marshal` on a
slice of strings. -/
def encodeJSONKeysArray (marshal : List String → Except String String)
    (keys : List String) : Except String String :=
  if keys.length = 0 then .ok "\x7b\"keys\": []\x7d"
  else
    match marshal keys with
    | .error err => .error err
    | .ok responseArray => .ok ("\x7b\"keys\": " ++ responseArray ++ "\x7d")

/-- The loop of `listJSONKeysHandle` that collects the keys of the decoded
map, in `range` order. -/
def listJSONKeys (jsonData : List (String × Value)) : List String :=
  jsonData.foldl (fun keys entry => keys ++ [entry.1]) []

/-- What a handler leaves in the response writer: `failure code errmsg` is
`gracefulFail(w, code, errmsg)`, `success body` a 200 response. -/
inductive Response where
  | failure (code : Nat) (errmsg : String) : Response
  | success (body : String) : Response
  deriving DecidableEq, Repr

/-- Wire form of a response; `quote` is the `%q` verb of `fmt`. -/
def Response.render (quote : String → String) : Response → Nat × String
  | .failure code errmsg => (code, "\x7b\"message\": " ++ quote errmsg ++ "\x7d")
  | .success body => (200, body)

/-- Result of `url.ParseQuery(r.URL.RawQuery)`: the parameters that could be
decoded and the first decoding error, if any. -/
structure ParsedQuery where
  values : String → List String
  err : Option String

/-- Embedding of `listJSONKeysHandle`; `decoded` is the result of
`decodeJSON(r)`. -/
def listJSONKeysHandle (marshal : List String → Except String String)
    (decoded : Except String (List (String × Value))) : Response :=
  match decoded with
  | .error err => .failure 400 err
  | .ok jsonData =>
      match encodeJSONKeysArray marshal (listJSONKeys jsonData) with
      | .error err => .failure 400 err
      | .ok jsonResp => .success jsonResp

/-- Embedding of `findValueHandle`; `query` is the result of
`url.ParseQuery(r.URL.RawQuery)`. -/
def findValueHandle (fp : Float64Ops)
    (marshal : List String → Except String String)
    (decoded : Except String (List (String × Value)))
    (query : ParsedQuery) : Response :=
  match decoded with
  | .error err => .failure 400 err
  | .ok jsonData =>
      match query.err with
      | some err => .failure 400 err
      | none =>
          match query.values "value" with
          | [] => .failure 400 "missing parameter `value`"
          | value :: _ =>
              match encodeJSONKeysArray marshal
                  (searchValueInJsonObject fp (.object jsonData) value "") with
              | .error err => .failure 400 err
              | .ok jsonResp => .success jsonResp

/-! ## `generateJSON` (main.go, lines 55-75) -/

/-- Largest Go `int` (64 bit). -/
def maxInt : Int := 2 ^ 63 - 1

/-- Two's complement wrap-around of 64-bit `int` arithmetic. -/
def wrapInt (x : Int) : Int := (x + 2 ^ 63) % 2 ^ 64 - 2 ^ 63

/-- The verb `%d` applied to a result of `rand.Int()`. -/
def formatInt (n : Nat) : String := toString n

/-- Go `strings.Repeat` for a non-negative count. -/
def strRepeat (s : String) : Nat → String
  | 0 => ""
  | n + 1 => s ++ strRepeat s n

/-- The first loop of `generateJSON`: `count` iterations remain, `draw` calls
of `rand.Int()` have been made. -/
def levelsLoop (rnd : Nat → Nat) : Nat → Nat → String → String
  | 0, _, result => result
  | count + 1, draw, result =>
      levelsLoop rnd count (draw + 1)
        (result ++ ("\"" ++ formatInt (rnd draw) ++ "\": \x7b"))

/-- The second loop of `generateJSON`. -/
def keysLoop (rnd : Nat → Nat) : Nat → Nat → String → String
  | 0, _, result => result
  | count + 1, draw, result =>
      keysLoop rnd count (draw + 2)
        (result ++ (", \"" ++ formatInt (rnd draw) ++ "\": \""
          ++ formatInt (rnd (draw + 1)) ++ "\""))

/-- Embedding of `generateJSON(levels, numkeys)`.  `none` is the run-time
panic of `strings.Repeat` on a negative count. -/
def generateJSON (rnd : Nat → Nat) (levels numkeys : Int) : Option String :=
  if levels = 0 ∨ numkeys = 0 then some "\x7b\x7d"
  else
    let chain := wrapInt (levels - 1)
    let result := levelsLoop rnd chain.toNat 0 "\x7b"
    let lastLevel := "\"" ++ formatInt (rnd chain.toNat) ++ "\": \""
      ++ formatInt (rnd (chain.toNat + 1)) ++ "\""
    if chain < 0 then none
    else
      let result := result ++ (lastLevel ++ strRepeat "\x7d" chain.toNat)
      let result :=
        keysLoop rnd (wrapInt (numkeys - levels)).toNat (chain.toNat + 2) result
      some (result ++ "\x7d")

/-- Embedding of `generateJSONHandle`; `query` is the result of
`url.ParseQuery(r.URL.RawQuery)` and `atoi` is `strconv.Atoi`.  `none` is a
panic inside `generateJSON`. -/
def generateJSONHandle (atoi : String → Except String Int) (rnd : Nat → Nat)
    (query : ParsedQuery) : Option Response :=
  match query.err with
  | some err => some (.failure 400 err)
  | none =>
      match query.values "levels" with
      | [] => some (.failure 400 "missing parameter `levels`")
      | levelsStr :: _ =>
          match query.values "numkeys" with
          | [] => some (.failure 400 "missing parameter `numkeys`")
          | numkeysStr :: _ =>
              match atoi levelsStr with
              | .error err => some (.failure 400 err)
              | .ok levels =>
                  match atoi numkeysStr with
                  | .error err => some (.failure 400 err)
                  | .ok numkeys =>
                      if levels > numkeys then
                        some (.failure 400
                          "`numkeys` must be greater than or equal to `levels`")
                      else if levels < 0 ∨ numkeys < 0 then
                        some (.failure 400 "expected non-negative parameters")
                      else
                        (generateJSON rnd levels numkeys).map .success

/-! ## Reference construction of the synthesized document (spec, 4.3) -/

/-- Syntax tree of the documents the synthesizer emits: a string scalar or an
object with its members in textual order. -/
inductive Doc where
  | text (s : String) : Doc
  | object (members : List (String × Doc)) : Doc

mutual
/-- JSON text of a document, members separated by a comma and a blank. -/
def Doc.render : Doc → String
  | .text s => "\"" ++ s ++ "\""
  | .object members => "\x7b" ++ renderMembers true members ++ "\x7d"
/-- JSON text of a member list; `first` tells whether no member precedes. -/
def renderMembers : Bool → List (String × Doc) → String
  | _, [] => ""
  | first, (k, d) :: rest =>
      (if first then "" else ", ") ++ ("\"" ++ k ++ "\": " ++ Doc.render d)
        ++ renderMembers false rest
end

/-- The member that heads a chain of `further` more nested single-key objects;
the leaf level maps a numeric string to a numeric string.  Keys and the leaf
value are the draws `draw, draw + 1, ...` in order. -/
def referenceChain (rnd : Nat → Nat) : Nat → Nat → String × Doc
  | 0, draw => (formatInt (rnd draw), .text (formatInt (rnd (draw + 1))))
  | further + 1, draw =>
      (formatInt (rnd draw), .object [referenceChain rnd further (draw + 1)])

/-- The `count` sibling members, each a numeric-string key with a
numeric-string value. -/
def referenceSiblings (rnd : Nat → Nat) : Nat → Nat → List (String × Doc)
  | 0, _ => []
  | count + 1, draw =>
      (formatInt (rnd draw), .text (formatInt (rnd (draw + 1))))
        :: referenceSiblings rnd count (draw + 2)

/-- The reference construction, following the words of the specification:
the empty object when `levels = 0` or `numkeys = 0`; otherwise a chain of
`levels` nested single-key objects whose leaf holds a scalar, with the
remaining `numkeys - levels` keys as siblings at the outermost level only. -/
def referenceDoc (rnd : Nat → Nat) (levels numkeys : Int) : Doc :=
  if levels = 0 ∨ numkeys = 0 then .object []
  else
    .object (referenceChain rnd (levels - 1).toNat 0
      :: referenceSiblings rnd (numkeys - levels).toNat (levels.toNat + 1))

/-- A chain of `further` nested single-key objects ending in a scalar that is
the decimal form of a number. -/
def IsChain : Nat → Doc → Prop
  | 0, .text s => ∃ n : Nat, s = formatInt n
  | further + 1, .object [(k, d)] => (∃ n : Nat, k = formatInt n) ∧ IsChain further d
  | _, _ => False

/-- The numbers drawn for keys by `generateJSON rnd levels numkeys`: the
`levels` keys of the chain and the keys of the siblings. -/
def keyDraws (rnd : Nat → Nat) (levels numkeys : Int) : List Nat :=
  (List.range levels.toNat).map rnd
    ++ (List.range (numkeys - levels).toNat).map
        (fun j => rnd (levels.toNat + 1 + 2 * j))

/-! ## Decoding of JSON text (model of `json.Unmarshal` into a map)

The decoder covers the fragment of JSON in which the synthesizer writes:
objects, string literals without escape sequences, and insignificant white
space.  Text outside of the fragment is not decoded (`none`). -/

/-- The double quote. -/
def quoteChar : Char := Char.ofNat 34
/-- The backslash. -/
def backslashChar : Char := Char.ofNat 92
/-- The opening brace. -/
def openBrace : Char := Char.ofNat 123
/-- The closing brace. -/
def closeBrace : Char := Char.ofNat 125
/-- The colon. -/
def colonChar : Char := Char.ofNat 58
/-- The comma. -/
def commaChar : Char := Char.ofNat 44

/-- JSON white space: blank, tab, line feed, carriage return. -/
def isSpace (c : Char) : Bool :=
  c.toNat = 32 || c.toNat = 9 || c.toNat = 10 || c.toNat = 13

/-- Skips leading white space. -/
def skipSpace : List Char → List Char
  | [] => []
  | c :: cs => if isSpace c then skipSpace cs else c :: cs

/-- Reads the body of a string literal up to its closing quote; escape
sequences and control characters are outside of the fragment. -/
def scanString : List Char → Option (List Char × List Char)
  | [] => none
  | c :: cs =>
      if c = quoteChar then some ([], cs)
      else if c = backslashChar ∨ c.toNat < 32 then none
      else
        match scanString cs with
        | some (body, rest) => some (c :: body, rest)
        | none => none

/-- Go map assignment `m[k] = v`. -/
def mapSet : List (String × Value) → String → Value → List (String × Value)
  | [], k, v => [(k, v)]
  | (k0, v0) :: m, k, v =>
      if k0 = k then (k, v) :: m else (k0, v0) :: mapSet m k v

/-- Keeps a decoding result only when it is an object followed by nothing
but white space. -/
def asObject : Option (Value × List Char) → Option (List (String × Value))
  | some (.object m, rest) => if skipSpace rest = [] then some m else none
  | _ => none

mutual
/-- Decodes one value from the front of the input; the fuel bounds the
nesting and the number of members read. -/
def decodeValue : Nat → List Char → Option (Value × List Char)
  | 0, _ => none
  | fuel + 1, cs =>
      match skipSpace cs with
      | [] => none
      | c :: r =>
          if c = quoteChar then
            match scanString r with
            | some (body, rest) =>
                some (.string (String.mk body) (asObject (decodeValue fuel body)), rest)
            | none => none
          else if c = openBrace then
            match skipSpace r with
            | [] => none
            | c1 :: r1 =>
                if c1 = closeBrace then some (.object [], r1)
                else
                  match decodeMembers fuel r [] with
                  | some (m, rest) => some (.object m, rest)
                  | none => none
          else none
/-- Decodes `"key": value` members up to the closing brace, assigning each
to the map `m` built so far. -/
def decodeMembers : Nat → List Char → List (String × Value) →
    Option (List (String × Value) × List Char)
  | 0, _, _ => none
  | fuel + 1, cs, m =>
      match skipSpace cs with
      | [] => none
      | c :: r =>
          if c = quoteChar then
            match scanString r with
            | some (key, r1) =>
                match skipSpace r1 with
                | [] => none
                | c2 :: r2 =>
                    if c2 = colonChar then
                      match decodeValue fuel r2 with
                      | some (v, r3) =>
                          match skipSpace r3 with
                          | [] => none
                          | c4 :: r4 =>
                              if c4 = commaChar then
                                decodeMembers fuel r4 (mapSet m (String.mk key) v)
                              else if c4 = closeBrace then
                                some (mapSet m (String.mk key) v, r4)
                              else none
                      | none => none
                    else none
            | none => none
          else none
end

/-- Model of `json.Unmarshal([]byte(text), &jsonObj)` for a
`map[string]interface{}` target, on the fragment above. -/
def unmarshalObject (text : String) : Option (List (String × Value)) :=
  asObject (decodeValue (text.length + 1) text.data)

mutual
/-- The decoded form of a document: string scalars of the synthesizer do not
hold JSON objects, members are assigned to the map in textual order. -/
def Doc.toValue : Doc → Value
  | .text s => .string s none
  | .object members => .object (membersToMap members [])
/-- Assigns the members, in order, to the map `m`. -/
def membersToMap : List (String × Doc) → List (String × Value) →
    List (String × Value)
  | [], m => m
  | (k, d) :: rest, m => membersToMap rest (mapSet m k (Doc.toValue d))
end

/-! ## The measuring function of the tests (handles_test.go, lines 55-109) -/

mutual
/-- Embedding of `checkGeneratedJSONOutputStep(t, jsonObj, depth)`, returning
`(depth, numkeys)`.  `none` is the panic of `reflect.TypeOf(nil).Kind()`. -/
def checkGeneratedJSONOutputStep : Value → Int → Option (Int × Int)
  | .null, _ => none
  | .bool _, depth => some (depth, 0)
  | .number _, depth => some (depth, 0)
  | .object entries, depth =>
      stepEntries entries (if entries.length ≠ 0 then depth + 1 else depth) 0
  | .array elems, depth => stepElems elems depth 0
  | .string _ doc, depth =>
      match doc with
      | none => some (depth, 0)
      | some jsonData =>
          match stepEntries jsonData
              (if jsonData.length ≠ 0 then depth + 1 else depth) 0 with
          | none => none
          | some (lowerDepth, lowerNumkeys) =>
              some (if lowerDepth > depth then lowerDepth else depth,
                0 + lowerNumkeys)
/-- The loop over the values of a map: `numkeys++` then `lowerLevelCall`. -/
def stepEntries : List (String × Value) → Int → Int → Option (Int × Int)
  | [], depth, numkeys => some (depth, numkeys)
  | (_, value) :: rest, depth, numkeys =>
      match checkGeneratedJSONOutputStep value depth with
      | none => none
      | some (lowerDepth, lowerNumkeys) =>
          stepEntries rest (if lowerDepth > depth then lowerDepth else depth)
            (numkeys + 1 + lowerNumkeys)
/-- The loop over the elements of a slice: `lowerLevelCall` on each. -/
def stepElems : List Value → Int → Int → Option (Int × Int)
  | [], depth, numkeys => some (depth, numkeys)
  | elem :: rest, depth, numkeys =>
      match checkGeneratedJSONOutputStep elem depth with
      | none => none
      | some (lowerDepth, lowerNumkeys) =>
          stepElems rest (if lowerDepth > depth then lowerDepth else depth)
            (numkeys + lowerNumkeys)
end

/-- Embedding of `checkGeneratedJSONOutput(t, output, levels, numkeys)`:
`true` when no `t.Fatalf` is reached, for the map visited in decoding order. -/
def checkGeneratedJSONOutput (output : String) (levels numkeys : Int) : Bool :=
  match unmarshalObject output with
  | none => false
  | some jsonObj =>
      match checkGeneratedJSONOutputStep (.object jsonObj) 0 with
      | none => false
      | some (depth, nkeys) => decide (depth = levels) && decide (numkeys = nkeys)

/-! ## Vocabulary of the search properties -/

/-- The scalars: null, booleans, numbers and strings. -/
def Value.isScalar : Value → Bool
  | .null => true
  | .bool _ => true
  | .number _ => true
  | .string _ _ => true
  | _ => false

/-- The string form of a scalar; `formatFloat` is the decimal rendering of
numbers. -/
def stringForm (formatFloat : ℚ → String) : Value → String
  | .null => "null"
  | .bool b => formatBool b
  | .number x => formatFloat x
  | .string s _ => s
  | _ => ""

/-- `HasEntry k s T`: some object of the tree `T` (reached through objects
and arrays) has an entry with key `k` and value `s`. -/
inductive HasEntry (k : String) (s : Value) : Value → Prop where
  | here (entries : List (String × Value)) :
      (k, s) ∈ entries → HasEntry k s (.object entries)
  | inObject (entries : List (String × Value)) (k0 : String) (v : Value) :
      (k0, v) ∈ entries → HasEntry k s v → HasEntry k s (.object entries)
  | inArray (elems : List Value) (v : Value) :
      v ∈ elems → HasEntry k s v → HasEntry k s (.array elems)

mutual
/-- Whether some scalar node of the tree, the documents nested inside string
values included, matches the target under the rule of its type: null against
`"null"`, a boolean against its textual form, a number within the tolerance,
a string by equality. -/
def hasMatch (fp : Float64Ops) (target : String) : Value → Bool
  | .null => decide (target = "null")
  | .bool b => decide (formatBool b = target)
  | .number x =>
      match fp.parseFloat target with
      | some res => decide (|fp.sub res x| < EPS)
      | none => false
  | .string s doc =>
      decide (s = target) ||
        (match doc with
         | some jsonData => hasMatchEntries fp target jsonData
         | none => false)
  | .array elems => hasMatchElems fp target elems
  | .object entries => hasMatchEntries fp target entries
/-- Some value of the entries has a matching scalar. -/
def hasMatchEntries (fp : Float64Ops) (target : String) :
    List (String × Value) → Bool
  | [] => false
  | (_, v) :: rest => hasMatch fp target v || hasMatchEntries fp target rest
/-- Some element has a matching scalar. -/
def hasMatchElems (fp : Float64Ops) (target : String) : List Value → Bool
  | [] => false
  | v :: rest => hasMatch fp target v || hasMatchElems fp target rest
end

/-! ## A concrete instance of the float64 parameters, for evaluation -/

/-- Value of a string of decimal digits (`none` when empty or when a
character is not a digit). -/
def digitsValue : List Char → Option Nat
  | [] => none
  | cs => cs.foldl
      (fun acc c => match acc with
        | some n => if c.isDigit then some (10 * n + (c.toNat - 48)) else none
        | none => none) (some 0)

/-- Numerator and number of decimals of a plain numeral: an optional minus
sign, digits, and an optional fraction. -/
def parseDecimal (s : String) : Option (Int × Nat) :=
  let negative := s.data.head? = some (Char.ofNat 45)
  let body := if negative then s.data.tail else s.data
  let whole := body.takeWhile (fun c => c.toNat ≠ 46)
  let frac := (body.dropWhile (fun c => c.toNat ≠ 46)).tail
  match digitsValue (whole ++ frac) with
  | none => none
  | some n =>
      if whole = [] ∨ (frac = [] ∧ whole.length < body.length) then none
      else some (if negative then -(n : Int) else (n : Int), frac.length)

/-- Exact decimal arithmetic standing in for float64: `strconv.ParseFloat`
on plain numerals and exact subtraction. -/
def decimalOps : Float64Ops where
  parseFloat := fun s =>
    match parseDecimal s with
    | some (n, decimals) => some ((n : ℚ) / (10 : ℚ) ^ decimals)
    | none => none
  sub := fun a b => a - b

/-! ## Auxiliary notions for the decoding of synthesized documents -/

mutual
/-- Fuel that suffices to decode the text of a document. -/
def Doc.fuel : Doc → Nat
  | .text _ => 1
  | .object members => 1 + membersFuel members
/-- Fuel that suffices to decode a member list. -/
def membersFuel : List (String × Doc) → Nat
  | [] => 0
  | (_, d) :: rest => 1 + (Doc.fuel d + membersFuel rest)
end

mutual
/-- Documents whose keys and scalars consist of decimal digits only. -/
def Doc.Numeric : Doc → Prop
  | .text s => ∀ c ∈ s.data, c.isDigit = true
  | .object members => membersNumeric members
/-- All members have a numeric key and a numeric document. -/
def membersNumeric : List (String × Doc) → Prop
  | [] => True
  | (k, d) :: rest =>
      (∀ c ∈ k.data, c.isDigit = true) ∧ Doc.Numeric d ∧ membersNumeric rest
end

/-- The decoding property of one document, used as induction hypothesis. -/
def Decodes (d : Doc) : Prop :=
  d.Numeric → ∀ (f : Nat) (rest : List Char), d.fuel ≤ f →
    decodeValue f (d.render.data ++ rest) = some (d.toValue, rest)

/-- Depth added by a value when measured from depth `0`. -/
def depthGain (e : String × Value) : Int :=
  ((checkGeneratedJSONOutputStep e.2 0).getD (0, 0)).1

/-- Keys counted below a value. -/
def keysBelow (e : String × Value) : Int :=
  ((checkGeneratedJSONOutputStep e.2 0).getD (0, 0)).2

/-! ## Sample inputs -/

/-- The text `{"b": 1}`. -/
def nestedText : String := "\x7b\"b\": 1\x7d"

/-- The decoded form of `nestedText`. -/
def nestedDoc : List (String × Value) := [("b", .number 1)]

/-- A document with every kind of node:
`{"a": 200, "host": "cofax.tld", "none": null,
  "list": [{"flag": true}], "inner": "{\"b\": 1}"}`. -/
def sampleDoc : List (String × Value) :=
  [("a", .number 200), ("host", .string "cofax.tld" none), ("none", .null),
   ("list", .array [.object [("flag", .bool true)]]),
   ("inner", .string nestedText (some nestedDoc))]

/-- A query with the given `levels` and `numkeys` parameters. -/
def sampleQuery (levels numkeys : List String) : String → List String :=
  fun name => if name = "levels" then levels else if name = "numkeys" then numkeys else []

/-- A stand-in for `strconv.Atoi` on plain signed numerals. -/
def sampleAtoi (s : String) : Except String Int :=
  match parseDecimal s with
  | some (n, 0) => .ok n
  | _ => .error ("strconv.Atoi: parsing " ++ s ++ ": invalid syntax")

/-! # Properties -/

/-! ## Induction over the nested tree -/

theorem Value.induct_entries (P : Value → Prop) (hnull : P .null)
    (hbool : ∀ b, P (.bool b)) (hnum : ∀ x, P (.number x))
    (hstr : ∀ s doc, (∀ m, doc = some m → ∀ e ∈ m, P e.2) → P (.string s doc))
    (harr : ∀ es, (∀ e ∈ es, P e) → P (.array es))
    (hobj : ∀ m, (∀ e ∈ m, P e.2) → P (.object m)) : ∀ v, P v :=
  @Value.rec P (fun doc => ∀ m, doc = some m → ∀ e ∈ m, P e.2)
    (fun es => ∀ e ∈ es, P e) (fun m => ∀ e ∈ m, P e.2) (fun e => P e.2)
    hnull hbool hnum hstr harr hobj
    (fun m h => by cases h)
    (fun val ih m h => by cases h; exact ih)
    (fun e h => by cases h)
    (fun head tail ih1 ih2 e h => by
      rcases List.mem_cons.mp h with h | h
      · exact h ▸ ih1
      · exact ih2 e h)
    (fun e h => by cases h)
    (fun head tail ih1 ih2 e h => by
      rcases List.mem_cons.mp h with h | h
      · exact h ▸ ih1
      · exact ih2 e h)
    (fun _ _ ih => ih)

/-! ## Unfolding of the search -/

theorem search_string_some (fp : Float64Ops) (s : String)
    (d : List (String × Value)) (t k : String) :
    searchValueInJsonObject fp (.string s (some d)) t k
      = if s = t ∧ k ≠ "" then [k] else searchEntries fp d t := by
  rw [searchValueInJsonObject]

theorem search_string_none (fp : Float64Ops) (s t k : String) :
    searchValueInJsonObject fp (.string s none) t k
      = if s = t ∧ k ≠ "" then [k] else [] := by
  rw [searchValueInJsonObject]

theorem search_object (fp : Float64Ops) (m : List (String × Value)) (t k : String) :
    searchValueInJsonObject fp (.object m) t k = searchEntries fp m t := by
  rw [searchValueInJsonObject]

theorem search_array (fp : Float64Ops) (es : List Value) (t k : String) :
    searchValueInJsonObject fp (.array es) t k = searchElems fp es t := by
  rw [searchValueInJsonObject]

theorem searchElems_eq_flatten (fp : Float64Ops) (es : List Value) (t : String) :
    searchElems fp es t
      = (es.map (fun e => searchValueInJsonObject fp e t "")).flatten := by
  induction es with
  | nil => simp [searchElems]
  | cons e rest ih => simp [searchElems, ih]

theorem searchEntries_mem (fp : Float64Ops) (t : String)
    (m : List (String × Value)) (k0 : String) (v : Value) (x : String)
    (hmem : (k0, v) ∈ m) (hx : x ∈ searchValueInJsonObject fp v t k0) :
    x ∈ searchEntries fp m t := by
  induction m with
  | nil => cases hmem
  | cons e rest ih =>
      obtain ⟨k1, v1⟩ := e
      rw [searchEntries]
      rcases List.mem_cons.mp hmem with h | h
      · cases h
        exact List.mem_append_left _ hx
      · exact List.mem_append_right _ (ih h)

theorem searchElems_mem (fp : Float64Ops) (t : String) (es : List Value)
    (v : Value) (x : String) (hmem : v ∈ es)
    (hx : x ∈ searchValueInJsonObject fp v t "") : x ∈ searchElems fp es t := by
  induction es with
  | nil => cases hmem
  | cons e rest ih =>
      rw [searchElems]
      rcases List.mem_cons.mp hmem with h | h
      · subst h
        exact List.mem_append_left _ hx
      · exact List.mem_append_right _ (ih h)

theorem searchEntries_eq_nil (fp : Float64Ops) (t : String)
    (m : List (String × Value))
    (h : ∀ e ∈ m, ∀ pk, searchValueInJsonObject fp e.2 t pk = []) :
    searchEntries fp m t = [] := by
  induction m with
  | nil => simp [searchEntries]
  | cons e rest ih =>
      obtain ⟨k, v⟩ := e
      rw [searchEntries, h (k, v) (List.mem_cons_self _ _) k,
        ih (fun e he => h e (List.mem_cons_of_mem _ he))]
      rfl

theorem searchElems_eq_nil (fp : Float64Ops) (t : String) (es : List Value)
    (h : ∀ e ∈ es, ∀ pk, searchValueInJsonObject fp e t pk = []) :
    searchElems fp es t = [] := by
  induction es with
  | nil => simp [searchElems]
  | cons e rest ih =>
      rw [searchElems, h e (List.mem_cons_self _ _) "",
        ih (fun e he => h e (List.mem_cons_of_mem _ he))]
      rfl

theorem hasMatchEntries_false (fp : Float64Ops) (t : String)
    (m : List (String × Value)) (h : hasMatchEntries fp t m = false) :
    ∀ e ∈ m, hasMatch fp t e.2 = false := by
  induction m with
  | nil => intro e he; cases he
  | cons e rest ih =>
      obtain ⟨k, v⟩ := e
      rw [hasMatchEntries, Bool.or_eq_false_iff] at h
      intro e he
      rcases List.mem_cons.mp he with he | he
      · subst he; exact h.1
      · exact ih h.2 e he

theorem hasMatchElems_false (fp : Float64Ops) (t : String) (es : List Value)
    (h : hasMatchElems fp t es = false) : ∀ e ∈ es, hasMatch fp t e = false := by
  induction es with
  | nil => intro e he; cases he
  | cons e rest ih =>
      rw [hasMatchElems, Bool.or_eq_false_iff] at h
      intro e he
      rcases List.mem_cons.mp he with he | he
      · subst he; exact h.1
      · exact ih h.2 e he

theorem search_nomatch (fp : Float64Ops) (t : String) :
    ∀ (v : Value), hasMatch fp t v = false →
      ∀ pk, searchValueInJsonObject fp v t pk = [] := by
  intro v
  induction v using Value.induct_entries with
  | hnull =>
      intro h pk
      rw [hasMatch] at h
      simp only [decide_eq_false_iff_not] at h
      rw [searchValueInJsonObject, if_neg h]
  | hbool b =>
      intro h pk
      rw [hasMatch] at h
      simp only [decide_eq_false_iff_not] at h
      rw [searchValueInJsonObject, if_neg h]
  | hnum x =>
      intro h pk
      simp only [hasMatch] at h
      simp only [searchValueInJsonObject]
      cases hp : fp.parseFloat t with
      | none => rfl
      | some res =>
          rw [hp] at h
          simp only [decide_eq_false_iff_not] at h
          simp only [if_neg h]
  | hstr s doc ih =>
      intro h pk
      cases doc with
      | none =>
          rw [hasMatch, Bool.or_eq_false_iff] at h
          simp only [decide_eq_false_iff_not] at h
          rw [searchValueInJsonObject, if_neg (fun hc => h.1 hc.1)]
      | some d =>
          rw [hasMatch, Bool.or_eq_false_iff] at h
          simp only [decide_eq_false_iff_not] at h
          rw [searchValueInJsonObject, if_neg (fun hc => h.1 hc.1)]
          exact searchEntries_eq_nil fp t d (fun e he =>
            ih d rfl e he (hasMatchEntries_false fp t d h.2 e he))
  | harr es ih =>
      intro h pk
      rw [hasMatch] at h
      rw [searchValueInJsonObject]
      exact searchElems_eq_nil fp t es (fun e he =>
        ih e he (hasMatchElems_false fp t es h e he))
  | hobj m ih =>
      intro h pk
      rw [hasMatch] at h
      rw [searchValueInJsonObject]
      exact searchEntries_eq_nil fp t m (fun e he =>
        ih e he (hasMatchEntries_false fp t m h e he))

theorem EPS_eq : EPS = 1 / 1000 := by
  norm_num [EPS]

theorem decimalOps_parse_200 : decimalOps.parseFloat "200" = some 200 := by
  have h : parseDecimal "200" = some (200, 0) := by decide
  simp [decimalOps, h]

theorem decimalOps_parse_1 : decimalOps.parseFloat "1" = some 1 := by
  have h : parseDecimal "1" = some (1, 0) := by decide
  simp [decimalOps, h]

theorem decimalOps_parse_nestedText : decimalOps.parseFloat nestedText = none := by
  have h : parseDecimal nestedText = none := by decide
  simp [decimalOps, h]

/-! ## Key listing -/

theorem listJSONKeys_foldl (m : List (String × Value)) (acc : List String) :
    m.foldl (fun keys entry => keys ++ [entry.1]) acc = acc ++ m.map Prod.fst := by
  induction m generalizing acc with
  | nil => simp
  | cons e rest ih => simp [ih]

theorem listJSONKeys_eq_map (m : List (String × Value)) :
    listJSONKeys m = m.map Prod.fst := by
  simp [listJSONKeys, listJSONKeys_foldl]

/-- C2: for a decoded object `obj` (a map, so its keys are pairwise distinct)
visited by the `range` loop in any order `visited`, the key list built by
`listJSONKeysHandle` is a permutation of the top-level keys, has as many
elements as the object has entries, holds every top-level key exactly once and
no other string (whatever the values contain), and is what the handler
encodes. -/
theorem listJSONKeys_exact (marshal : List String → Except String String)
    (obj visited : List (String × Value))
    (hkeys : (obj.map Prod.fst).Nodup) (horder : visited.Perm obj) :
    (listJSONKeys visited).Perm (obj.map Prod.fst) ∧
    (listJSONKeys visited).length = obj.length ∧
    (∀ k, (listJSONKeys visited).count k = if k ∈ obj.map Prod.fst then 1 else 0) ∧
    listJSONKeysHandle marshal (.ok visited)
      = (match encodeJSONKeysArray marshal (listJSONKeys visited) with
         | .error err => .failure 400 err
         | .ok jsonResp => .success jsonResp) := by
  have hperm : (listJSONKeys visited).Perm (obj.map Prod.fst) := by
    rw [listJSONKeys_eq_map]
    exact horder.map _
  refine ⟨hperm, ?_, ?_, rfl⟩
  · rw [hperm.length_eq, List.length_map]
  · intro k
    rw [hperm.count_eq]
    by_cases hk : k ∈ obj.map Prod.fst
    · rw [if_pos hk]
      exact List.count_eq_one_of_mem hkeys hk
    · rw [if_neg hk]
      exact List.count_eq_zero_of_not_mem hk

/-- Witness of C2: the object `{"a": {"b": null}, "c": null}` visited in the
order `c, a`. -/
theorem listJSONKeys_exact_witness :
    (listJSONKeys [("c", .null), ("a", .object [("b", .null)])]).Perm ["a", "c"] ∧
    (listJSONKeys [("c", .null), ("a", .object [("b", .null)])]).count "b" = 0 :=
  have h := listJSONKeys_exact (fun _ => .ok "")
    [("a", .object [("b", .null)]), ("c", .null)]
    [("c", .null), ("a", .object [("b", .null)])]
    (by decide) (List.Perm.swap _ _ _)
  ⟨h.1, by rw [h.2.2.1 "b"]; decide⟩

/-! ## The generate boundary -/

theorem generateJSON_succeeds (rnd : Nat → Nat) (levels numkeys : Int)
    (h0 : 0 ≤ levels) (h1 : levels ≤ numkeys) (hmax : numkeys ≤ maxInt) :
    ∃ res, generateJSON rnd levels numkeys = some res := by
  unfold generateJSON
  by_cases hz : levels = 0 ∨ numkeys = 0
  · exact ⟨_, if_pos hz⟩
  · rw [if_neg hz]
    have hw : ¬ wrapInt (levels - 1) < 0 := by
      have : wrapInt (levels - 1) = levels - 1 := by
        unfold wrapInt maxInt at *
        omega
      rw [this]
      push_neg at hz
      omega
    simp only [if_neg hw]
    exact ⟨_, rfl⟩

/-- C4 (as the code has it): `url.ParseQuery` comes first: when it reports an
error the handler fails with that error's text, whatever parameters are
present.  For a request whose query string parses without error the handler
decides in this order: a missing `levels` (also when `numkeys` is missing
too), a missing `numkeys`, and, for parameters that parse to the Go integers
`levels` and `numkeys`, the ordering error exactly when `levels > numkeys`,
the negativity error exactly when `levels ≤ numkeys` and one of them is
negative, and success with the text of `generateJSON` verbatim exactly when
`0 ≤ levels ≤ numkeys`. -/
theorem generateJSONHandle_decision_order (atoi : String → Except String Int)
    (rnd : Nat → Nat) (values : String → List String) :
    (∀ err, generateJSONHandle atoi rnd ⟨values, some err⟩
      = some (.failure 400 err)) ∧
    (values "levels" = [] →
      generateJSONHandle atoi rnd ⟨values, none⟩
        = some (.failure 400 "missing parameter `levels`")) ∧
    (values "levels" ≠ [] → values "numkeys" = [] →
      generateJSONHandle atoi rnd ⟨values, none⟩
        = some (.failure 400 "missing parameter `numkeys`")) ∧
    (∀ (l n : String) (ls ns : List String) (levels numkeys : Int),
      values "levels" = l :: ls → values "numkeys" = n :: ns →
      atoi l = .ok levels → atoi n = .ok numkeys → numkeys ≤ maxInt →
      (generateJSONHandle atoi rnd ⟨values, none⟩
          = some (.failure 400 "`numkeys` must be greater than or equal to `levels`")
        ↔ levels > numkeys) ∧
      (generateJSONHandle atoi rnd ⟨values, none⟩
          = some (.failure 400 "expected non-negative parameters")
        ↔ levels ≤ numkeys ∧ (levels < 0 ∨ numkeys < 0)) ∧
      ((∃ res, generateJSON rnd levels numkeys = some res ∧
          generateJSONHandle atoi rnd ⟨values, none⟩ = some (.success res))
        ↔ 0 ≤ levels ∧ levels ≤ numkeys)) := by
  refine ⟨fun err => rfl, fun h => ?_, fun h h2 => ?_, ?_⟩
  · simp [generateJSONHandle, h]
  · cases hl : values "levels" with
    | nil => exact absurd hl h
    | cons l ls => simp [generateJSONHandle, hl, h2]
  · intro l n ls ns levels numkeys hl hn hal han hmax
    have hH : generateJSONHandle atoi rnd ⟨values, none⟩
        = if levels > numkeys then
            some (.failure 400 "`numkeys` must be greater than or equal to `levels`")
          else if levels < 0 ∨ numkeys < 0 then
            some (.failure 400 "expected non-negative parameters")
          else (generateJSON rnd levels numkeys).map .success := by
      simp [generateJSONHandle, hl, hn, hal, han]
    rw [hH]
    by_cases h1 : levels > numkeys
    · rw [if_pos h1]
      refine ⟨⟨fun _ => h1, fun _ => rfl⟩, ⟨fun h => ?_, fun h => ?_⟩, ⟨fun h => ?_, fun h => ?_⟩⟩
      · exact absurd h (by decide)
      · omega
      · obtain ⟨res, _, h⟩ := h
        exact absurd h (by simp)
      · omega
    · rw [if_neg h1]
      by_cases h2 : levels < 0 ∨ numkeys < 0
      · rw [if_pos h2]
        refine ⟨⟨fun h => ?_, fun h => absurd h h1⟩, ⟨fun _ => ⟨by omega, h2⟩, fun _ => rfl⟩,
          ⟨fun h => ?_, fun h => ?_⟩⟩
        · exact absurd h (by decide)
        · obtain ⟨res, _, h⟩ := h
          exact absurd h (by simp)
        · omega
      · rw [if_neg h2]
        push_neg at h2
        obtain ⟨res, hres⟩ :=
          generateJSON_succeeds rnd levels numkeys h2.1 (by omega) hmax
        rw [hres]
        refine ⟨⟨fun h => ?_, fun h => absurd h h1⟩, ⟨fun h => ?_, fun h => ?_⟩,
          ⟨fun _ => ⟨h2.1, by omega⟩, fun _ => ⟨res, rfl, rfl⟩⟩⟩
        · exact absurd h (by simp)
        · exact absurd h (by simp)
        · omega

/-- Witness of C4: `levels=-2&numkeys=-1` reports the negativity error. -/
theorem generateJSONHandle_decision_order_witness :
    generateJSONHandle sampleAtoi (fun i => i)
        ⟨sampleQuery ["-2"] ["-1"], none⟩
      = some (.failure 400 "expected non-negative parameters") :=
  ((generateJSONHandle_decision_order sampleAtoi (fun i => i)
      (sampleQuery ["-2"] ["-1"])).2.2.2 "-2" "-1" [] [] (-2) (-1)
      rfl rfl rfl rfl (by decide)).2.1.mpr
    ⟨by decide, Or.inl (by decide)⟩

/-- Counterexample to C4 as stated: for `GET /generate?x=%zz` the query has no
`levels` parameter and `url.ParseQuery` reports `invalid URL escape "%zz"`;
the handler answers with that text and not with the message for a missing
`levels`. -/
theorem generateJSONHandle_malformed_query :
    (ParsedQuery.mk (fun _ => []) (some "invalid URL escape \"%zz\"")).values
        "levels" = [] ∧
    generateJSONHandle sampleAtoi (fun i => i)
        ⟨fun _ => [], some "invalid URL escape \"%zz\""⟩
      = some (.failure 400 "invalid URL escape \"%zz\"") ∧
    generateJSONHandle sampleAtoi (fun i => i)
        ⟨fun _ => [], some "invalid URL escape \"%zz\""⟩
      ≠ some (.failure 400 "missing parameter `levels`") := by
  refine ⟨rfl, rfl, ?_⟩
  decide

/-! ## The search: numbers -/

/-- C5: a number node `v` visited under the key `k` is recorded (the result
is `[k]`) exactly when the target parses as a number `x` with
`|x - v| < 0.001`, the fixed tolerance of the source, strictly; otherwise
nothing is recorded, in particular when the target does not parse.  With
exact decimal arithmetic, `{"a": 200}` and `{"a": 200.0001}` searched for
`"200"` give `["a"]` and `{"a": 201}` gives no match; a difference of exactly
`0.001` (`{"a": 200.001}`) is no match, one of `0.0009` is. -/
theorem number_match_iff (fp : Float64Ops) (v : ℚ) (t k : String) :
    (searchValueInJsonObject fp (.number v) t k = [k]
      ↔ ∃ x, fp.parseFloat t = some x ∧ |fp.sub x v| < 1 / 1000) ∧
    (searchValueInJsonObject fp (.number v) t k = []
      ↔ ¬ ∃ x, fp.parseFloat t = some x ∧ |fp.sub x v| < 1 / 1000) ∧
    (fp.parseFloat t = none → searchValueInJsonObject fp (.number v) t k = []) ∧
    (searchValueInJsonObject decimalOps (.number v) t k = [k]
      ↔ ∃ x, decimalOps.parseFloat t = some x ∧ |x - v| < 1 / 1000) ∧
    searchValueInJsonObject decimalOps (.object [("a", .number 200)]) "200" ""
      = ["a"] ∧
    searchValueInJsonObject decimalOps
      (.object [("a", .number (2000001 / 10000))]) "200" "" = ["a"] ∧
    searchValueInJsonObject decimalOps (.object [("a", .number 201)]) "200" ""
      = [] ∧
    searchValueInJsonObject decimalOps
      (.object [("a", .number (200001 / 1000))]) "200" "" = [] ∧
    searchValueInJsonObject decimalOps
      (.object [("a", .number (2000009 / 10000))]) "200" "" = ["a"] := by
  have hgen : ∀ fp : Float64Ops,
      (searchValueInJsonObject fp (.number v) t k = [k]
        ↔ ∃ x, fp.parseFloat t = some x ∧ |fp.sub x v| < 1 / 1000) := by
    intro fp
    simp only [searchValueInJsonObject, EPS_eq]
    cases hp : fp.parseFloat t with
    | none => simp
    | some res =>
        by_cases hlt : |fp.sub res v| < 1 / 1000
        · simp [hlt]
        · simp [hlt]
  refine ⟨hgen fp, ?_, ?_, hgen decimalOps, ?_, ?_, ?_, ?_, ?_⟩
  · simp only [searchValueInJsonObject, EPS_eq]
    cases hp : fp.parseFloat t with
    | none => simp
    | some res =>
        by_cases hlt : |fp.sub res v| < 1 / 1000
        · simp [hlt]
        · simp [hlt]
  · intro hp
    simp only [searchValueInJsonObject, hp]
  · simp only [searchValueInJsonObject, searchEntries, decimalOps_parse_200, EPS_eq]
    simp [decimalOps]
  · simp only [searchValueInJsonObject, searchEntries, decimalOps_parse_200, EPS_eq]
    simp only [decimalOps]
    norm_num [abs_lt]
  · simp only [searchValueInJsonObject, searchEntries, decimalOps_parse_200, EPS_eq]
    simp only [decimalOps]
    norm_num [abs_lt]
  · simp only [searchValueInJsonObject, searchEntries, decimalOps_parse_200, EPS_eq]
    simp only [decimalOps]
    norm_num [abs_lt]
  · simp only [searchValueInJsonObject, searchEntries, decimalOps_parse_200, EPS_eq]
    simp only [decimalOps]
    norm_num [abs_lt]

/-- Witness of C5: the target `"impossible"` does not parse, so the number
`201` under the key `a` is not recorded. -/
theorem number_match_iff_witness :
    searchValueInJsonObject decimalOps (.number 201) "impossible" "a" = [] :=
  (number_match_iff decimalOps 201 "impossible" "a").2.2.1 (by
    have h : parseDecimal "impossible" = none := by decide
    simp [decimalOps, h])

/-! ## The search: strings -/

/-- C6 (as the code has it): for a string `s` whose content parses as the
object `D`, the exact comparison comes first: when `s` equals the target and
the enclosing key `k` is non-empty the result is `[k]` and no nested search is
made; otherwise the result is that of searching `D` with an empty enclosing
key, and `k` is not recorded.  When the content does not parse as an object
the result is `[k]` if `s` equals the target and `k` is non-empty, and empty
otherwise.  In `{"a": "{\"b\": 1}"}` the search for `"1"` yields `"b"`. -/
theorem string_search_order (fp : Float64Ops) (s t k : String) :
    (∀ D, searchValueInJsonObject fp (.string s (some D)) t k
        = if s = t ∧ k ≠ "" then [k]
          else searchValueInJsonObject fp (.object D) t "") ∧
    (searchValueInJsonObject fp (.string s none) t k
        = if s = t ∧ k ≠ "" then [k] else []) ∧
    searchValueInJsonObject decimalOps
      (.object [("a", .string nestedText (some nestedDoc))]) "1" "" = ["b"] := by
  refine ⟨fun D => ?_, search_string_none fp s t k, ?_⟩
  · rw [search_string_some, search_object]
  · have hne : ¬ (nestedText = "1" ∧ "a" ≠ "") := by decide
    simp only [search_object, searchEntries, search_string_some, if_neg hne,
      nestedDoc, searchValueInJsonObject, decimalOps_parse_1]
    simp [decimalOps, EPS_eq]

/-- Counterexample to C6 as stated: the string `{"b": 1}` under the key `a`,
searched for its own text, yields `["a"]`, whereas the search of its parsed
content yields nothing. -/
theorem string_search_parse_first_fails :
    searchValueInJsonObject decimalOps (.string nestedText (some nestedDoc))
        nestedText "a" = ["a"] ∧
    searchValueInJsonObject decimalOps (.object nestedDoc) nestedText "" = [] ∧
    searchValueInJsonObject decimalOps (.string nestedText (some nestedDoc))
        nestedText "a"
      ≠ searchValueInJsonObject decimalOps (.object nestedDoc) nestedText "" := by
  have h1 : searchValueInJsonObject decimalOps
      (.string nestedText (some nestedDoc)) nestedText "a" = ["a"] := by
    rw [search_string_some, if_pos ⟨rfl, by decide⟩]
  have h2 : searchValueInJsonObject decimalOps (.object nestedDoc) nestedText ""
      = [] := by
    simp only [search_object, nestedDoc, searchEntries, searchValueInJsonObject,
      decimalOps_parse_nestedText]
    rfl
  refine ⟨h1, h2, ?_⟩
  rw [h1, h2]
  exact List.cons_ne_nil _ _

/-! ## The search: arrays -/

/-- C7 (as the code has it): the result for an array visited under any key
`k` is the concatenation, over its elements in order, of the results of
searching each element with an empty enclosing key: the key of the array is
not handed down.  Searching `{"a": ["x"]}` for `"x"` records nothing. -/
theorem array_search_resets_key (fp : Float64Ops) (A : List Value) (t k : String) :
    searchValueInJsonObject fp (.array A) t k
      = (A.map (fun e => searchValueInJsonObject fp e t "")).flatten ∧
    searchValueInJsonObject fp (.object [("a", .array [.string "x" none])]) "x" ""
      = [] := by
  refine ⟨?_, ?_⟩
  · rw [search_array, searchElems_eq_flatten]
  · simp [search_object, search_array, searchEntries, searchElems,
      search_string_none]

/-- Counterexample to C7 as stated: for the array `["x"]` under the key `a`
and the target `"x"` the code returns nothing, while the concatenation of the
searches of the elements under the key `a` is `["a"]`. -/
theorem array_search_inherit_fails :
    searchValueInJsonObject decimalOps (.array [.string "x" none]) "x" "a" = [] ∧
    ([Value.string "x" none].map
        (fun e => searchValueInJsonObject decimalOps e "x" "a")).flatten = ["a"] := by
  refine ⟨?_, ?_⟩
  · simp [search_array, searchElems, search_string_none]
  · simp [search_string_none]

/-! ## The search: scalars without an enclosing key -/

/-- C8 (evaluation of the code): with an empty enclosing key a matching null,
boolean or number is recorded under the key `""`, unlike a string, whose
branch checks that the key is non-empty.  The document `{"a": [true]}`
searched for `"true"` yields `[""]`. -/
theorem keyless_scalar_recorded (fp : Float64Ops) (s t : String) :
    searchValueInJsonObject fp .null "null" "" = [""] ∧
    searchValueInJsonObject fp (.bool true) "true" "" = [""] ∧
    searchValueInJsonObject decimalOps (.number 200) "200" "" = [""] ∧
    searchValueInJsonObject fp (.string s none) t "" = [] ∧
    searchValueInJsonObject fp (.object [("a", .array [.bool true])]) "true" ""
      = [""] ∧
    findValueHandle fp (fun _ => .ok "[\"\"]")
      (.ok [("a", .array [.bool true])]) ⟨fun _ => ["true"], none⟩
      = .success "\x7b\"keys\": [\"\"]\x7d" := by
  have h5 : searchValueInJsonObject fp (.object [("a", .array [.bool true])])
      "true" "" = [""] := by
    simp [searchValueInJsonObject, searchEntries, searchElems, formatBool]
  refine ⟨?_, ?_, ?_, ?_, h5, ?_⟩
  · simp [searchValueInJsonObject]
  · simp [searchValueInJsonObject, formatBool]
  · simp only [searchValueInJsonObject, decimalOps_parse_200]
    simp [decimalOps, EPS_eq]
  · simp [search_string_none]
  · simp only [findValueHandle, h5, encodeJSONKeysArray]
    rfl

/-! ## The search: no match -/

/-- C9: when no scalar node of `T`, the documents nested in strings
included, matches the target under the rule of its type, the search from the
root returns the empty collection, and `encodeJSONKeysArray` turns it (as any
empty collection) into exactly `{"keys": []}` without error. -/
theorem search_no_match_empty (fp : Float64Ops)
    (marshal : List String → Except String String) (T : Value) (t : String)
    (hno : hasMatch fp t T = false) :
    searchValueInJsonObject fp T t "" = [] ∧
    encodeJSONKeysArray marshal (searchValueInJsonObject fp T t "")
      = .ok "\x7b\"keys\": []\x7d" ∧
    encodeJSONKeysArray marshal [] = .ok "\x7b\"keys\": []\x7d" := by
  have h := search_nomatch fp t T hno ""
  refine ⟨h, ?_, rfl⟩
  rw [h]
  rfl

/-- Witness of C9: the sample document searched for `"impossible"`. -/
theorem search_no_match_empty_witness :
    searchValueInJsonObject decimalOps (.object sampleDoc) "impossible" "" = [] ∧
    encodeJSONKeysArray (fun _ => .error "unused")
        (searchValueInJsonObject decimalOps (.object sampleDoc) "impossible" "")
      = .ok "\x7b\"keys\": []\x7d" :=
  have h := search_no_match_empty decimalOps (fun _ => .error "unused")
    (.object sampleDoc) "impossible" (by decide)
  ⟨h.1, h.2.1⟩

/-! ## The search: a scalar under a key is found -/

theorem scalar_found (fp : Float64Ops) (formatFloat : ℚ → String)
    (k : String) (s : Value) (hs : s.isScalar = true)
    (hkey : ∀ str doc, s = .string str doc → k ≠ "")
    (hnum : ∀ x, s = .number x →
      ∃ r, fp.parseFloat (formatFloat x) = some r ∧ |fp.sub r x| < EPS) :
    k ∈ searchValueInJsonObject fp s (stringForm formatFloat s) k := by
  cases s with
  | null => simp [searchValueInJsonObject, stringForm]
  | bool b => simp [searchValueInJsonObject, stringForm]
  | number x =>
      obtain ⟨r, hr, hlt⟩ := hnum x rfl
      simp [searchValueInJsonObject, stringForm, hr, hlt]
  | string str doc =>
      have hk := hkey str doc rfl
      cases doc with
      | none => simp [search_string_none, stringForm, hk]
      | some d => simp [search_string_some, stringForm, hk]
  | array es => simp [Value.isScalar] at hs
  | object m => simp [Value.isScalar] at hs

/-- C3 (as the code has it): for a tree `T`, a key `k` and a scalar `s` that
is the value of an entry with key `k` in some object of `T`, the search of `T`
for the string form of `s` contains `k`, provided `k` is non-empty when `s` is
a string (the string branch records only non-empty keys) and, when `s` is a
number, its decimal rendering parses back to within the tolerance. -/
theorem search_finds_scalar (fp : Float64Ops) (formatFloat : ℚ → String)
    (T : Value) (k : String) (s : Value) (pk : String)
    (hs : s.isScalar = true) (hentry : HasEntry k s T)
    (hkey : ∀ str doc, s = .string str doc → k ≠ "")
    (hnum : ∀ x, s = .number x →
      ∃ r, fp.parseFloat (formatFloat x) = some r ∧ |fp.sub r x| < EPS) :
    k ∈ searchValueInJsonObject fp T (stringForm formatFloat s) pk := by
  induction hentry generalizing pk with
  | here entries hmem =>
      rw [search_object]
      exact searchEntries_mem fp _ entries k s k hmem
        (scalar_found fp formatFloat k s hs hkey hnum)
  | inObject entries k0 v hmem _ ih =>
      rw [search_object]
      exact searchEntries_mem fp _ entries k0 v k hmem (ih k0)
  | inArray elems v hmem _ ih =>
      rw [search_array]
      exact searchElems_mem fp _ elems v k hmem (ih "")

/-- Witness of C3: the number `200` under the key `a` of the sample
document, rendered as `"200"`. -/
theorem search_finds_scalar_witness :
    "a" ∈ searchValueInJsonObject decimalOps (.object sampleDoc) "200" "" :=
  search_finds_scalar decimalOps (fun _ => "200") (.object sampleDoc) "a"
    (.number 200) "" rfl
    (HasEntry.here sampleDoc (by simp [sampleDoc]))
    (fun _ _ h => by cases h)
    (fun x h => by
      cases h
      exact ⟨200, decimalOps_parse_200, by simp [decimalOps, EPS_eq]⟩)

/-- Counterexample to C3 as stated: in `{"": "x"}` the string `"x"` is the
value of the entry with the empty key, yet the search for `"x"` returns
nothing, so it does not contain that key. -/
theorem search_misses_empty_key :
    HasEntry "" (.string "x" none) (.object [("", .string "x" none)]) ∧
    (Value.string "x" none).isScalar = true ∧
    stringForm (fun _ => "") (.string "x" none) = "x" ∧
    "" ∉ searchValueInJsonObject decimalOps
      (.object [("", .string "x" none)]) "x" "" := by
  refine ⟨HasEntry.here _ (List.mem_cons_self _ _), rfl, rfl, ?_⟩
  simp [search_object, searchEntries, search_string_none]

/-! ## Decimal numerals -/

theorem formatInt_data (n : Nat) : (formatInt n).data = Nat.toDigits 10 n := rfl

theorem digitChar_isDigit (d : Nat) (h : d < 10) : (Nat.digitChar d).isDigit = true := by
  interval_cases d <;> decide

theorem digitChar_value (d : Nat) (h : d < 10) : (Nat.digitChar d).toNat - 48 = d := by
  interval_cases d <;> decide

theorem toDigitsCore_all (P : Char → Prop) (hP : ∀ d, d < 10 → P (Nat.digitChar d)) :
    ∀ (fuel n : Nat) (ds : List Char), (∀ c ∈ ds, P c) →
      ∀ c ∈ Nat.toDigitsCore 10 fuel n ds, P c := by
  intro fuel
  induction fuel with
  | zero => intro n ds h c hc; simpa [Nat.toDigitsCore] using h c hc
  | succ fuel ih =>
      intro n ds h c hc
      simp only [Nat.toDigitsCore] at hc
      have hd : ∀ c ∈ Nat.digitChar (n % 10) :: ds, P c := by
        intro c hc
        rcases List.mem_cons.mp hc with hc | hc
        · exact hc ▸ hP _ (Nat.mod_lt _ (by decide))
        · exact h c hc
      split at hc
      · exact hd c hc
      · exact ih _ _ hd c hc

theorem formatInt_digits (n : Nat) : ∀ c ∈ (formatInt n).data, c.isDigit = true := by
  rw [formatInt_data]
  exact toDigitsCore_all _ digitChar_isDigit _ _ _ (fun c hc => by cases hc)

theorem toDigitsCore_foldl (fuel : Nat) :
    ∀ (n : Nat) (ds : List Char), n < fuel →
      (Nat.toDigitsCore 10 fuel n ds).foldl (fun a c => 10 * a + (c.toNat - 48)) 0
        = ds.foldl (fun a c => 10 * a + (c.toNat - 48)) n := by
  induction fuel with
  | zero => intro n ds h; omega
  | succ fuel ih =>
      intro n ds h
      simp only [Nat.toDigitsCore]
      split
      · rename_i hz
        simp only [List.foldl_cons, Nat.mul_zero, Nat.zero_add]
        rw [digitChar_value _ (Nat.mod_lt _ (by decide))]
        have : n % 10 = n := by omega
        rw [this]
      · rename_i hz
        rw [ih (n / 10) _ (by omega)]
        simp only [List.foldl_cons]
        rw [digitChar_value _ (Nat.mod_lt _ (by decide))]
        have : 10 * (n / 10) + n % 10 = n := by omega
        rw [this]

theorem formatInt_injective (a b : Nat) (h : formatInt a = formatInt b) : a = b := by
  have h1 := toDigitsCore_foldl (a + 1) a [] (by omega)
  have h2 := toDigitsCore_foldl (b + 1) b [] (by omega)
  have hd : Nat.toDigits 10 a = Nat.toDigits 10 b := by
    rw [← formatInt_data, ← formatInt_data, h]
  simp only [Nat.toDigits] at hd
  rw [hd] at h1
  simpa using h1.symm.trans h2

/-! ## The synthesizer against the reference construction -/

theorem strRepeat_succ_right (s : String) (n : Nat) :
    strRepeat s (n + 1) = strRepeat s n ++ s := by
  induction n with
  | zero => simp [strRepeat]
  | succ n ih =>
      show s ++ strRepeat s (n + 1) = (s ++ strRepeat s n) ++ s
      rw [ih, String.append_assoc]

theorem lit_open : ("\": \x7b" : String) = "\": " ++ "\x7b" := by decide
theorem lit_quote : ("\": \"" : String) = "\": " ++ "\"" := by decide
theorem lit_sep : (", \"" : String) = ", " ++ "\"" := by decide

theorem render_text (s : String) : (Doc.text s).render = "\"" ++ s ++ "\"" := by
  rw [Doc.render]

theorem render_object (ms : List (String × Doc)) :
    (Doc.object ms).render = "\x7b" ++ renderMembers true ms ++ "\x7d" := by
  rw [Doc.render]

theorem renderMembers_nil (first : Bool) : renderMembers first [] = "" := by
  rw [renderMembers]

theorem renderMembers_cons (first : Bool) (e : String × Doc)
    (rest : List (String × Doc)) :
    renderMembers first (e :: rest)
      = (if first then "" else ", ") ++ ("\"" ++ e.1 ++ "\": " ++ e.2.render)
          ++ renderMembers false rest := by
  obtain ⟨k, d⟩ := e
  rw [renderMembers]

theorem levelsLoop_chain (rnd : Nat → Nat) (n : Nat) :
    ∀ (d : Nat) (acc tail : String),
      levelsLoop rnd n d acc
          ++ ("\"" ++ (formatInt (rnd (d + n)) ++ ("\": " ++ ("\""
              ++ (formatInt (rnd (d + n + 1)) ++ ("\"" ++ (strRepeat "\x7d" n ++ tail)))))))
        = acc ++ ("\"" ++ ((referenceChain rnd n d).1 ++ ("\": "
            ++ ((referenceChain rnd n d).2.render ++ tail)))) := by
  induction n with
  | zero =>
      intro d acc tail
      simp only [levelsLoop, strRepeat, referenceChain, render_text, Nat.add_zero,
        String.append_assoc, String.empty_append]
  | succ n ih =>
      intro d acc tail
      have hidx : d + (n + 1) = d + 1 + n := by omega
      rw [levelsLoop, strRepeat_succ_right, hidx]
      simp only [String.append_assoc]
      rw [ih]
      simp only [referenceChain, render_object, renderMembers_cons, renderMembers_nil,
        lit_open, String.append_assoc, String.append_empty, String.empty_append, if_true]

theorem keysLoop_siblings (rnd : Nat → Nat) (n : Nat) :
    ∀ (d : Nat) (acc : String),
      keysLoop rnd n d acc
        = acc ++ renderMembers false (referenceSiblings rnd n d) := by
  induction n with
  | zero =>
      intro d acc
      simp [keysLoop, referenceSiblings, renderMembers_nil]
  | succ n ih =>
      intro d acc
      rw [keysLoop, ih]
      simp only [referenceSiblings, renderMembers_cons, render_text, lit_quote, lit_sep,
        String.append_assoc, Bool.false_eq_true, if_false]

theorem generateJSON_eq_render (rnd : Nat → Nat) (levels numkeys : Int)
    (h0 : 1 ≤ levels) (h1 : levels ≤ numkeys) (hmax : numkeys ≤ maxInt) :
    generateJSON rnd levels numkeys = some (referenceDoc rnd levels numkeys).render := by
  have hz : ¬ (levels = 0 ∨ numkeys = 0) := by omega
  have hw1 : wrapInt (levels - 1) = levels - 1 := by
    unfold wrapInt maxInt at *
    omega
  have hw2 : wrapInt (numkeys - levels) = numkeys - levels := by
    unfold wrapInt maxInt at *
    omega
  have hneg : ¬ (levels - 1 < 0) := by omega
  have hidx : (levels - 1).toNat + 2 = levels.toNat + 1 := by omega
  unfold generateJSON referenceDoc
  simp only [if_neg hz, hw1, hw2, if_neg hneg]
  rw [keysLoop_siblings, hidx]
  have h := levelsLoop_chain rnd (levels - 1).toNat 0 "\x7b"
  simp only [Nat.zero_add] at h
  simp only [String.append_assoc, lit_quote]
  rw [h]
  simp only [render_object, renderMembers_cons, String.append_assoc, if_true,
    String.empty_append]

theorem referenceChain_isChain (rnd : Nat → Nat) (n : Nat) :
    ∀ d, IsChain n (referenceChain rnd n d).2 ∧
      ∃ a : Nat, (referenceChain rnd n d).1 = formatInt a := by
  induction n with
  | zero => intro d; exact ⟨⟨_, rfl⟩, ⟨_, rfl⟩⟩
  | succ n ih =>
      intro d
      refine ⟨?_, ⟨_, rfl⟩⟩
      obtain ⟨h1, h2⟩ := ih (d + 1)
      simp only [referenceChain]
      rcases hc : referenceChain rnd n (d + 1) with ⟨k, v⟩
      rw [hc] at h1 h2
      exact ⟨h2, h1⟩

theorem referenceSiblings_length (rnd : Nat → Nat) (n : Nat) :
    ∀ d, (referenceSiblings rnd n d).length = n := by
  induction n with
  | zero => intro d; rfl
  | succ n ih => intro d; simp [referenceSiblings, ih]

theorem referenceSiblings_mem (rnd : Nat → Nat) (n : Nat) :
    ∀ d, ∀ e ∈ referenceSiblings rnd n d,
      ∃ j, j < n ∧ e = (formatInt (rnd (d + 2 * j)),
        Doc.text (formatInt (rnd (d + 2 * j + 1)))) := by
  induction n with
  | zero => intro d e he; cases he
  | succ n ih =>
      intro d e he
      simp only [referenceSiblings] at he
      rcases List.mem_cons.mp he with h | h
      · exact ⟨0, by omega, by simpa using h⟩
      · obtain ⟨j, hj, hje⟩ := ih (d + 2) e h
        refine ⟨j + 1, by omega, ?_⟩
        rw [hje]
        have h1 : d + 2 + 2 * j = d + 2 * (j + 1) := by omega
        rw [h1]

/-- C10: `generateJSON` produces the empty object when `levels = 0` or
`numkeys = 0` (so for `(0, 10)` and `(4, 0)`), and for Go integers with
`numkeys ≥ levels ≥ 1` its text is the rendering of the reference
construction, whatever the draws: an outermost object of
`1 + (numkeys - levels)` members, the first heading a chain of `levels - 1`
further single-member objects that ends in a numeric string, the others
mapping a numeric string to a numeric string at the outermost level. -/
theorem generateJSON_reference (rnd : Nat → Nat) (levels numkeys : Int) :
    (levels = 0 ∨ numkeys = 0 →
      generateJSON rnd levels numkeys = some "\x7b\x7d" ∧
      (referenceDoc rnd levels numkeys).render = "\x7b\x7d") ∧
    generateJSON rnd 0 10 = some "\x7b\x7d" ∧
    generateJSON rnd 4 0 = some "\x7b\x7d" ∧
    (1 ≤ levels → levels ≤ numkeys → numkeys ≤ maxInt →
      generateJSON rnd levels numkeys
        = some (referenceDoc rnd levels numkeys).render ∧
      ∃ head siblings,
        referenceDoc rnd levels numkeys = .object (head :: siblings) ∧
        ((head :: siblings).length : Int) = 1 + (numkeys - levels) ∧
        (∃ a : Nat, head.1 = formatInt a) ∧
        IsChain (levels - 1).toNat head.2 ∧
        ∀ e ∈ siblings, ∃ a b : Nat, e = (formatInt a, Doc.text (formatInt b))) := by
  refine ⟨fun hz => ?_, rfl, rfl, fun h0 h1 hmax => ?_⟩
  · refine ⟨by simp [generateJSON, hz], ?_⟩
    simp [referenceDoc, hz, render_object, renderMembers_nil]
  · refine ⟨generateJSON_eq_render rnd levels numkeys h0 h1 hmax, ?_⟩
    have hz : ¬ (levels = 0 ∨ numkeys = 0) := by omega
    refine ⟨referenceChain rnd (levels - 1).toNat 0,
      referenceSiblings rnd (numkeys - levels).toNat (levels.toNat + 1), ?_, ?_, ?_, ?_, ?_⟩
    · simp only [referenceDoc, if_neg hz]
    · rw [List.length_cons, referenceSiblings_length]
      omega
    · exact (referenceChain_isChain rnd _ 0).2
    · exact (referenceChain_isChain rnd _ 0).1
    · intro e he
      obtain ⟨j, _, hje⟩ := referenceSiblings_mem rnd _ _ e he
      exact ⟨_, _, hje⟩

/-- Witness of C10: `levels = 4`, `numkeys = 10`, with the draws
`0, 1, 2, ...`. -/
theorem generateJSON_reference_witness :
    generateJSON (fun i => i) 4 10
      = some (referenceDoc (fun i => i) 4 10).render :=
  ((generateJSON_reference (fun i => i) 4 10).2.2.2
    (by decide) (by decide) (by decide)).1

theorem Doc.induct_members (P : Doc → Prop) (htext : ∀ s, P (.text s))
    (hobj : ∀ ms, (∀ e ∈ ms, P e.2) → P (.object ms)) : ∀ d, P d :=
  @Doc.rec P (fun ms => ∀ e ∈ ms, P e.2) (fun e => P e.2)
    htext hobj
    (fun e h => by cases h)
    (fun head tail ih1 ih2 e h => by
      rcases List.mem_cons.mp h with h | h
      · exact h ▸ ih1
      · exact ih2 e h)
    (fun _ _ ih => ih)

theorem isDigit_bounds (c : Char) (h : c.isDigit = true) :
    48 ≤ c.toNat ∧ c.toNat ≤ 57 := by
  simp only [Char.isDigit, Bool.and_eq_true, decide_eq_true_eq] at h
  exact ⟨h.1, h.2⟩

theorem digit_not_space (c : Char) (h : c.isDigit = true) : isSpace c = false := by
  have hb := isDigit_bounds c h
  simp only [isSpace, Bool.or_eq_false_iff, decide_eq_false_iff_not]
  omega

theorem digit_ne_quote (c : Char) (h : c.isDigit = true) : c ≠ quoteChar := by
  intro hc
  have hb := isDigit_bounds c h
  rw [hc] at hb
  revert hb
  decide

theorem digit_ne_openBrace (c : Char) (h : c.isDigit = true) : c ≠ openBrace := by
  intro hc
  have hb := isDigit_bounds c h
  rw [hc] at hb
  revert hb
  decide

theorem digit_plain (c : Char) (h : c.isDigit = true) :
    ¬ (c = backslashChar ∨ c.toNat < 32) := by
  have hb := isDigit_bounds c h
  rintro (hc | hc)
  · rw [hc] at hb
    revert hb
    decide
  · omega

theorem scanString_digits (ks rest : List Char) (h : ∀ c ∈ ks, c.isDigit = true) :
    scanString (ks ++ quoteChar :: rest) = some (ks, rest) := by
  induction ks with
  | nil => simp [scanString]
  | cons c cs ih =>
      have hc := h c (List.mem_cons_self _ _)
      have ih := ih (fun c hc => h c (List.mem_cons_of_mem _ hc))
      rw [List.cons_append, scanString, if_neg (digit_ne_quote c hc),
        if_neg (digit_plain c hc), ih]

theorem skipSpace_blank (cs : List Char) :
    skipSpace (Char.ofNat 32 :: cs) = skipSpace cs := by
  rw [skipSpace, if_pos (by decide)]

theorem skipSpace_keep (c : Char) (cs : List Char) (h : isSpace c = false) :
    skipSpace (c :: cs) = c :: cs := by
  rw [skipSpace, h]
  rfl

theorem decodeValue_blank (f : Nat) (cs : List Char) :
    decodeValue f (Char.ofNat 32 :: cs) = decodeValue f cs := by
  cases f with
  | zero => simp [decodeValue]
  | succ f => rw [decodeValue, decodeValue, skipSpace_blank]

theorem decodeMembers_blank (f : Nat) (cs : List Char) (m : List (String × Value)) :
    decodeMembers f (Char.ofNat 32 :: cs) m = decodeMembers f cs m := by
  cases f with
  | zero => simp [decodeMembers]
  | succ f => rw [decodeMembers, decodeMembers, skipSpace_blank]

theorem asObject_digits (f : Nat) (body : List Char)
    (h : ∀ c ∈ body, c.isDigit = true) : asObject (decodeValue f body) = none := by
  cases f with
  | zero => simp [decodeValue, asObject]
  | succ f =>
      cases body with
      | nil => simp [decodeValue, skipSpace, asObject]
      | cons c r =>
          have hc := h c (List.mem_cons_self _ _)
          rw [decodeValue, skipSpace_keep c r (digit_not_space c hc)]
          simp only [if_neg (digit_ne_quote c hc), if_neg (digit_ne_openBrace c hc)]
          rfl

theorem decodeValue_text (f : Nat) (s : String) (rest : List Char)
    (h : ∀ c ∈ s.data, c.isDigit = true) :
    decodeValue (f + 1) (quoteChar :: (s.data ++ quoteChar :: rest))
      = some (.string s none, rest) := by
  rw [decodeValue, skipSpace_keep _ _ (by decide)]
  simp only [if_true, scanString_digits s.data rest h, asObject_digits f s.data h]

theorem render_text_data (s : String) :
    (Doc.text s).render.data = quoteChar :: (s.data ++ [quoteChar]) := by
  rw [render_text]
  simp only [String.data_append]
  rfl

theorem render_object_data (ms : List (String × Doc)) :
    (Doc.object ms).render.data
      = openBrace :: ((renderMembers true ms).data ++ [closeBrace]) := by
  rw [render_object]
  simp only [String.data_append]
  rfl

theorem renderMembers_cons_data (first : Bool) (e : String × Doc)
    (rest : List (String × Doc)) :
    (renderMembers first (e :: rest)).data
      = (if first then [] else [commaChar, Char.ofNat 32])
        ++ quoteChar :: (e.1.data ++ quoteChar :: colonChar :: Char.ofNat 32
          :: (e.2.render.data ++ (renderMembers false rest).data)) := by
  rw [renderMembers_cons]
  cases first <;> simp only [String.data_append, List.append_assoc] <;> rfl

theorem fuel_text (s : String) : (Doc.text s).fuel = 1 := by rw [Doc.fuel]

theorem fuel_object (ms : List (String × Doc)) :
    (Doc.object ms).fuel = 1 + membersFuel ms := by rw [Doc.fuel]

theorem membersFuel_cons (e : String × Doc) (rest : List (String × Doc)) :
    membersFuel (e :: rest) = 1 + (e.2.fuel + membersFuel rest) := by
  obtain ⟨k, d⟩ := e
  rw [membersFuel]

theorem membersNumeric_cons (e : String × Doc) (rest : List (String × Doc)) :
    membersNumeric (e :: rest)
      ↔ (∀ c ∈ e.1.data, c.isDigit = true) ∧ e.2.Numeric ∧ membersNumeric rest := by
  obtain ⟨k, d⟩ := e
  rw [membersNumeric]

theorem membersToMap_cons (e : String × Doc) (rest : List (String × Doc))
    (m : List (String × Value)) :
    membersToMap (e :: rest) m = membersToMap rest (mapSet m e.1 e.2.toValue) := by
  obtain ⟨k, d⟩ := e
  rw [membersToMap]

theorem decodeMembers_render (rest : List (String × Doc)) :
    (∀ e ∈ rest, Decodes e.2) → membersNumeric rest →
    ∀ (e : String × Doc), Decodes e.2 → (∀ c ∈ e.1.data, c.isDigit = true) →
      e.2.Numeric →
    ∀ (f : Nat) (tail : List Char) (m : List (String × Value)),
      membersFuel (e :: rest) ≤ f →
      decodeMembers f (quoteChar :: (e.1.data ++ quoteChar :: colonChar
        :: Char.ofNat 32 :: (e.2.render.data
          ++ ((renderMembers false rest).data ++ closeBrace :: tail)))) m
        = some (membersToMap (e :: rest) m, tail) := by
  induction rest with
  | nil =>
      intro _ _ e he hk hd f tail m hf
      rw [membersFuel_cons] at hf
      obtain ⟨f, rfl⟩ : ∃ g, f = g + 1 := ⟨f - 1, by omega⟩
      rw [decodeMembers, skipSpace_keep _ _ (by decide)]
      simp only [if_true, scanString_digits e.1.data _ hk]
      rw [skipSpace_keep _ _ (by decide)]
      simp only [if_true, decodeValue_blank]
      rw [he hd f _ (by omega)]
      simp only [renderMembers_nil]
      show (match skipSpace (closeBrace :: tail) with
        | [] => none
        | c4 :: r4 =>
            if c4 = commaChar then decodeMembers f r4 (mapSet m (String.mk e.1.data) e.2.toValue)
            else if c4 = closeBrace then some (mapSet m (String.mk e.1.data) e.2.toValue, r4)
            else none) = _
      rw [skipSpace_keep _ _ (by decide)]
      simp only [if_neg (show closeBrace ≠ commaChar by decide), if_true]
      rw [membersToMap_cons]
      rfl
  | cons e1 rest ih =>
      intro hall hnum e he hk hd f tail m hf
      rw [membersFuel_cons] at hf
      rw [membersNumeric_cons] at hnum
      obtain ⟨f, rfl⟩ : ∃ g, f = g + 1 := ⟨f - 1, by omega⟩
      rw [decodeMembers, skipSpace_keep _ _ (by decide)]
      simp only [if_true, scanString_digits e.1.data _ hk]
      rw [skipSpace_keep _ _ (by decide)]
      simp only [if_true, decodeValue_blank]
      rw [he hd f _ (by omega)]
      rw [renderMembers_cons_data]
      simp only [Bool.false_eq_true, if_false, List.cons_append, List.nil_append,
        List.append_assoc]
      rw [skipSpace_keep _ _ (by decide)]
      simp only [if_true, decodeMembers_blank]
      have h := ih (fun e he => hall e (List.mem_cons_of_mem _ he)) hnum.2.2 e1
        (hall e1 (List.mem_cons_self _ _)) hnum.1 hnum.2.1 f tail
        (mapSet m (String.mk e.1.data) e.2.toValue) (by omega)
      rw [h, membersToMap_cons e]

theorem toValue_text (s : String) : (Doc.text s).toValue = .string s none := by
  rw [Doc.toValue]

theorem toValue_object (ms : List (String × Doc)) :
    (Doc.object ms).toValue = .object (membersToMap ms []) := by
  rw [Doc.toValue]

theorem decodeValue_render : ∀ d : Doc, Decodes d := by
  intro d
  induction d using Doc.induct_members with
  | htext s =>
      intro hnum f rest hf
      rw [fuel_text] at hf
      obtain ⟨f, rfl⟩ : ∃ g, f = g + 1 := ⟨f - 1, by omega⟩
      rw [Doc.Numeric] at hnum
      rw [render_text_data, toValue_text, List.cons_append, List.append_assoc,
        List.singleton_append]
      exact decodeValue_text f s rest hnum
  | hobj ms ih =>
      intro hnum f rest hf
      rw [fuel_object] at hf
      obtain ⟨f, rfl⟩ : ∃ g, f = g + 1 := ⟨f - 1, by omega⟩
      rw [Doc.Numeric] at hnum
      rw [render_object_data, toValue_object, List.cons_append, List.append_assoc,
        List.singleton_append, decodeValue, skipSpace_keep _ _ (by decide)]
      simp only [if_neg (show openBrace ≠ quoteChar by decide), if_true]
      cases ms with
      | nil =>
          rw [renderMembers_nil]
          show (match skipSpace (closeBrace :: rest) with
            | [] => none
            | c1 :: r1 =>
                if c1 = closeBrace then some (Value.object [], r1)
                else
                  match decodeMembers f ("".data ++ closeBrace :: rest) [] with
                  | some (m, rest) => some (Value.object m, rest)
                  | none => none) = _
          rw [skipSpace_keep _ _ (by decide)]
          simp only [if_true]
          rfl
      | cons e tail =>
          rw [membersNumeric_cons] at hnum
          rw [renderMembers_cons_data]
          simp only [if_true, List.nil_append, List.cons_append, List.append_assoc]
          rw [skipSpace_keep _ _ (by decide)]
          simp only [if_neg (show quoteChar ≠ closeBrace by decide)]
          rw [decodeMembers_render tail (fun e he => ih e (List.mem_cons_of_mem _ he))
            hnum.2.2 e (ih e (List.mem_cons_self _ _)) hnum.1 hnum.2.1 f rest []
            (by omega)]

theorem membersFuel_le (first : Bool) (ms : List (String × Doc))
    (h : ∀ e ∈ ms, e.2.fuel ≤ e.2.render.length) :
    membersFuel ms ≤ (renderMembers first ms).length := by
  induction ms generalizing first with
  | nil => rw [membersFuel]; exact Nat.zero_le _
  | cons e rest ih =>
      have h1 := h e (List.mem_cons_self _ _)
      have h2 := ih false (fun e he => h e (List.mem_cons_of_mem _ he))
      rw [membersFuel_cons, renderMembers_cons]
      simp only [String.length_append]
      have hq : ("\"" : String).length = 1 := rfl
      have hc : ("\": " : String).length = 3 := rfl
      omega

theorem fuel_le_length : ∀ d : Doc, d.fuel ≤ d.render.length := by
  intro d
  induction d using Doc.induct_members with
  | htext s =>
      rw [fuel_text, render_text]
      simp only [String.length_append]
      have hq : ("\"" : String).length = 1 := rfl
      omega
  | hobj ms ih =>
      rw [fuel_object, render_object]
      simp only [String.length_append]
      have h := membersFuel_le true ms ih
      have hq : ("\x7b" : String).length = 1 := rfl
      omega

theorem unmarshalObject_render (ms : List (String × Doc))
    (hnum : membersNumeric ms) :
    unmarshalObject (Doc.object ms).render = some (membersToMap ms []) := by
  have h := decodeValue_render (.object ms) (by rw [Doc.Numeric]; exact hnum)
    ((Doc.object ms).render.length + 1) []
    (Nat.le_succ_of_le (fuel_le_length _))
  rw [List.append_nil] at h
  rw [unmarshalObject, h, toValue_object]
  rfl

/-! ## Maps built from members with distinct keys -/

theorem mapSet_fresh (m : List (String × Value)) (k : String) (v : Value)
    (h : k ∉ m.map Prod.fst) : mapSet m k v = m ++ [(k, v)] := by
  induction m with
  | nil => rfl
  | cons e rest ih =>
      obtain ⟨k0, v0⟩ := e
      simp only [List.map_cons, List.mem_cons, not_or] at h
      rw [mapSet, if_neg (fun hc => h.1 hc.symm), ih h.2]
      rfl

theorem membersToMap_distinct (ms : List (String × Doc)) :
    ∀ m : List (String × Value),
      (m.map Prod.fst ++ ms.map Prod.fst).Nodup →
      membersToMap ms m = m ++ ms.map (fun e => (e.1, e.2.toValue)) := by
  induction ms with
  | nil => intro m _; simp [membersToMap]
  | cons e rest ih =>
      intro m h
      have hfresh : e.1 ∉ m.map Prod.fst := by
        intro hc
        have := (List.nodup_append.mp h).2.2 hc (by simp)
        exact this
      rw [membersToMap_cons, mapSet_fresh m e.1 _ hfresh, ih]
      · simp
      · simpa [List.map_append] using h

/-! ## The measure on the decoded document -/

theorem step_string_none (s : String) (depth : Int) :
    checkGeneratedJSONOutputStep (.string s none) depth = some (depth, 0) := by
  rw [checkGeneratedJSONOutputStep]

theorem step_object (m : List (String × Value)) (depth : Int) :
    checkGeneratedJSONOutputStep (.object m) depth
      = stepEntries m (if m.length ≠ 0 then depth + 1 else depth) 0 := by
  rw [checkGeneratedJSONOutputStep]

theorem stepEntries_cons (e : String × Value) (rest : List (String × Value))
    (depth numkeys : Int) :
    stepEntries (e :: rest) depth numkeys
      = match checkGeneratedJSONOutputStep e.2 depth with
        | none => none
        | some (lowerDepth, lowerNumkeys) =>
            stepEntries rest (if lowerDepth > depth then lowerDepth else depth)
              (numkeys + 1 + lowerNumkeys) := by
  obtain ⟨k, v⟩ := e
  rw [stepEntries]

theorem stepEntries_sum (inc cnt : String × Value → Int)
    (l : List (String × Value))
    (h : ∀ e ∈ l, 0 ≤ inc e ∧
      ∀ depth, checkGeneratedJSONOutputStep e.2 depth = some (depth + inc e, cnt e)) :
    ∀ depth numkeys, stepEntries l depth numkeys
      = some (depth + (l.map inc).sum, numkeys + (l.map (fun e => 1 + cnt e)).sum) := by
  induction l with
  | nil => intro depth numkeys; simp [stepEntries]
  | cons e rest ih =>
      intro depth numkeys
      obtain ⟨hpos, hstep⟩ := h e (List.mem_cons_self _ _)
      rw [stepEntries_cons, hstep depth]
      have hd : (if depth + inc e > depth then depth + inc e else depth)
          = depth + inc e := by
        split <;> omega
      simp only [hd]
      rw [ih (fun e he => h e (List.mem_cons_of_mem _ he))]
      simp only [List.map_cons, List.sum_cons]
      congr 2 <;> omega

theorem chain_measure (rnd : Nat → Nat) (n : Nat) :
    ∀ (d : Nat) (depth : Int),
      checkGeneratedJSONOutputStep (referenceChain rnd n d).2.toValue depth
        = some (depth + (n : Int), (n : Int)) := by
  induction n with
  | zero =>
      intro d depth
      simp only [referenceChain, toValue_text, step_string_none]
      simp
  | succ n ih =>
      intro d depth
      simp only [referenceChain, toValue_object, membersToMap_cons, membersToMap,
        mapSet, step_object, stepEntries_cons, ih]
      simp only [List.length_cons, List.length_nil, stepEntries]
      simp only [ne_eq, Nat.zero_add, one_ne_zero, not_false_eq_true, if_true]
      have hd : (if depth + 1 + (n : Int) > depth + 1 then depth + 1 + (n : Int)
          else depth + 1) = depth + 1 + n := by
        split <;> omega
      rw [hd]
      congr 2
      · push_cast; omega
      · push_cast; omega

theorem referenceChain_numeric (rnd : Nat → Nat) (n : Nat) :
    ∀ d, (∀ c ∈ (referenceChain rnd n d).1.data, c.isDigit = true) ∧
      (referenceChain rnd n d).2.Numeric := by
  induction n with
  | zero =>
      intro d
      refine ⟨formatInt_digits _, ?_⟩
      simp only [referenceChain, Doc.Numeric]
      exact formatInt_digits _
  | succ n ih =>
      intro d
      refine ⟨formatInt_digits _, ?_⟩
      simp only [referenceChain, Doc.Numeric]
      rw [membersNumeric_cons]
      exact ⟨(ih (d + 1)).1, (ih (d + 1)).2, by rw [membersNumeric]; trivial⟩

theorem referenceSiblings_numeric (rnd : Nat → Nat) (n : Nat) :
    ∀ d, membersNumeric (referenceSiblings rnd n d) := by
  induction n with
  | zero => intro d; rw [referenceSiblings, membersNumeric]; trivial
  | succ n ih =>
      intro d
      rw [referenceSiblings, membersNumeric_cons]
      refine ⟨formatInt_digits _, ?_, ih (d + 2)⟩
      rw [Doc.Numeric]
      exact formatInt_digits _

theorem referenceChain_key (rnd : Nat → Nat) (n d : Nat) :
    (referenceChain rnd n d).1 = formatInt (rnd d) := by
  cases n <;> rfl

theorem referenceSiblings_keys (rnd : Nat → Nat) (n : Nat) :
    ∀ d, (referenceSiblings rnd n d).map Prod.fst
      = (List.range n).map (fun j => formatInt (rnd (d + 2 * j))) := by
  induction n with
  | zero => intro d; rfl
  | succ n ih =>
      intro d
      rw [referenceSiblings, List.map_cons, ih, List.range_succ_eq_map, List.map_cons,
        List.map_map]
      congr 1
      apply List.map_congr_left
      intro j _
      show formatInt (rnd (d + 2 + 2 * j)) = formatInt (rnd (d + 2 * (j + 1)))
      congr 2
      omega

theorem topKeys_nodup (rnd : Nat → Nat) (levels numkeys : Int) (h0 : 1 ≤ levels)
    (hkeys : (keyDraws rnd levels numkeys).Nodup) :
    ((referenceChain rnd (levels - 1).toNat 0
      :: referenceSiblings rnd (numkeys - levels).toNat (levels.toNat + 1)).map
        Prod.fst).Nodup := by
  rw [List.map_cons, referenceChain_key, referenceSiblings_keys]
  have hsub : (rnd 0 :: (List.range (numkeys - levels).toNat).map
      (fun j => rnd (levels.toNat + 1 + 2 * j))).Sublist (keyDraws rnd levels numkeys) := by
    unfold keyDraws
    obtain ⟨l, hl⟩ : ∃ l, levels.toNat = l + 1 := ⟨levels.toNat - 1, by omega⟩
    rw [hl, List.range_succ_eq_map, List.map_cons]
    exact List.Sublist.cons₂ _ (List.sublist_append_right _ _)
  have hnd := (hkeys.sublist hsub).map (f := formatInt)
    (fun a b h => formatInt_injective a b h)
  simpa [List.map_map, Function.comp] using hnd

theorem sum_map_const (l : List (String × Value)) (g : String × Value → Int)
    (c : Int) (h : ∀ e ∈ l, g e = c) : (l.map g).sum = l.length * c := by
  induction l with
  | nil => simp
  | cons e rest ih =>
      rw [List.map_cons, List.sum_cons, h e (List.mem_cons_self _ _),
        ih (fun e he => h e (List.mem_cons_of_mem _ he)), List.length_cons]
      push_cast
      ring

theorem measure_reference (rnd : Nat → Nat) (n count d : Nat)
    (visited : List (String × Value))
    (hperm : visited.Perm
      ((referenceChain rnd n 0 :: referenceSiblings rnd count d).map
        (fun e => (e.1, e.2.toValue)))) :
    checkGeneratedJSONOutputStep (.object visited) 0
      = some ((n : Int) + 1, (n : Int) + 1 + count) := by
  have hsib : ∀ e ∈ (referenceSiblings rnd count d).map
      (fun e => (e.1, e.2.toValue)), ∃ s, e.2 = Value.string s none := by
    intro e he
    obtain ⟨e0, he0, rfl⟩ := List.mem_map.mp he
    obtain ⟨j, _, hj⟩ := referenceSiblings_mem rnd count d e0 he0
    exact ⟨_, by rw [hj, toValue_text]⟩
  have hprop : ∀ e ∈ (referenceChain rnd n 0 :: referenceSiblings rnd count d).map
      (fun e => (e.1, e.2.toValue)), 0 ≤ depthGain e ∧ ∀ depth,
        checkGeneratedJSONOutputStep e.2 depth = some (depth + depthGain e, keysBelow e) := by
    intro e he
    rw [List.map_cons] at he
    rcases List.mem_cons.mp he with h | h
    · subst h
      have : depthGain ((referenceChain rnd n 0).1, (referenceChain rnd n 0).2.toValue)
          = n ∧ keysBelow ((referenceChain rnd n 0).1, (referenceChain rnd n 0).2.toValue)
          = n := by
        simp [depthGain, keysBelow, chain_measure]
      rw [this.1, this.2]
      exact ⟨by omega, fun depth => chain_measure rnd n 0 depth⟩
    · obtain ⟨s, hs⟩ := hsib e h
      have : depthGain e = 0 ∧ keysBelow e = 0 := by
        simp [depthGain, keysBelow, hs, step_string_none]
      rw [this.1, this.2, hs]
      exact ⟨le_refl _, fun depth => by rw [step_string_none, Int.add_zero]⟩
  have hlen : visited.length ≠ 0 := by
    rw [hperm.length_eq]
    simp
  rw [step_object, if_pos hlen,
    stepEntries_sum depthGain keysBelow visited
      (fun e he => hprop e (hperm.mem_iff.mp he)),
    (hperm.map depthGain).sum_eq, (hperm.map (fun e => 1 + keysBelow e)).sum_eq]
  have hg : depthGain ((referenceChain rnd n 0).1, (referenceChain rnd n 0).2.toValue)
      = n := by
    simp [depthGain, chain_measure]
  have hk : keysBelow ((referenceChain rnd n 0).1, (referenceChain rnd n 0).2.toValue)
      = n := by
    simp [keysBelow, chain_measure]
  have hs1 := sum_map_const ((referenceSiblings rnd count d).map
      (fun e => (e.1, e.2.toValue))) depthGain 0 (fun e he => by
        obtain ⟨s, hs⟩ := hsib e he
        simp [depthGain, hs, step_string_none])
  have hs2 := sum_map_const ((referenceSiblings rnd count d).map
      (fun e => (e.1, e.2.toValue))) (fun e => 1 + keysBelow e) 1 (fun e he => by
        obtain ⟨s, hs⟩ := hsib e he
        simp [keysBelow, hs, step_string_none])
  simp only [List.map_cons, List.sum_cons]
  rw [hs1, hs2, hg, hk, List.length_map, referenceSiblings_length]
  congr 2 <;> ring

/-- C1: for Go integers `numkeys ≥ levels ≥ 0` and draws whose key numbers
are pairwise distinct, `generateJSON` returns a text that decodes to a JSON
object on which the measuring function of the tests, whatever the order in
which the map is visited, finds depth `levels` and `numkeys` keys when
`levels ≥ 1`, and depth `0` and no key when `levels = 0`; so
`checkGeneratedJSONOutput` passes. -/
theorem generateJSON_shape (rnd : Nat → Nat) (levels numkeys : Int)
    (h0 : 0 ≤ levels) (h1 : levels ≤ numkeys) (hmax : numkeys ≤ maxInt)
    (hkeys : (keyDraws rnd levels numkeys).Nodup) :
    ∃ text jsonObj,
      generateJSON rnd levels numkeys = some text ∧
      unmarshalObject text = some jsonObj ∧
      (∀ visited, visited.Perm jsonObj →
        checkGeneratedJSONOutputStep (.object visited) 0
          = some (levels, if levels = 0 then 0 else numkeys)) ∧
      checkGeneratedJSONOutput text levels (if levels = 0 then 0 else numkeys)
        = true := by
  by_cases hz : levels = 0
  · subst hz
    have hm : ∀ visited : List (String × Value), visited.Perm [] →
        checkGeneratedJSONOutputStep (.object visited) 0
          = some (0, if (0 : Int) = 0 then 0 else numkeys) := by
      intro visited hperm
      rw [List.Perm.eq_nil hperm]
      rfl
    refine ⟨"\x7b\x7d", [], by simp [generateJSON], rfl, hm, ?_⟩
    have hu : unmarshalObject "\x7b\x7d" = some [] := rfl
    simp only [checkGeneratedJSONOutput, hu, hm [] (List.Perm.refl _)]
    simp
  · have hl : 1 ≤ levels := by omega
    have hne : ¬ (levels = 0 ∨ numkeys = 0) := by omega
    have hdoc : referenceDoc rnd levels numkeys
        = .object (referenceChain rnd (levels - 1).toNat 0
            :: referenceSiblings rnd (numkeys - levels).toNat (levels.toNat + 1)) := by
      simp only [referenceDoc, if_neg hne]
    have hnum : membersNumeric (referenceChain rnd (levels - 1).toNat 0
        :: referenceSiblings rnd (numkeys - levels).toNat (levels.toNat + 1)) := by
      rw [membersNumeric_cons]
      exact ⟨(referenceChain_numeric rnd _ 0).1, (referenceChain_numeric rnd _ 0).2,
        referenceSiblings_numeric rnd _ _⟩
    have hdec := unmarshalObject_render _ hnum
    rw [membersToMap_distinct _ [] (by
      simpa using topKeys_nodup rnd levels numkeys hl hkeys), List.nil_append] at hdec
    have hm : ∀ visited : List (String × Value),
        visited.Perm ((referenceChain rnd (levels - 1).toNat 0
          :: referenceSiblings rnd (numkeys - levels).toNat (levels.toNat + 1)).map
            (fun e => (e.1, e.2.toValue))) →
        checkGeneratedJSONOutputStep (.object visited) 0
          = some (levels, if levels = 0 then 0 else numkeys) := by
      intro visited hperm
      rw [measure_reference rnd _ _ _ visited hperm, if_neg hz]
      congr 2 <;> omega
    refine ⟨_, _, generateJSON_eq_render rnd levels numkeys hl h1 hmax, ?_, hm, ?_⟩
    · rw [hdoc]
      exact hdec
    · rw [hdoc]
      simp only [checkGeneratedJSONOutput, hdec, hm _ (List.Perm.refl _)]
      simp

/-- Witness of C1: `levels = 4`, `numkeys = 10` with the draws `0, 1, 2, ...`
gives depth 4 and 10 keys; `levels = 0`, `numkeys = 10` gives depth 0 and no
key. -/
theorem generateJSON_shape_witness :
    (∃ text jsonObj, generateJSON (fun i => i) 4 10 = some text ∧
      unmarshalObject text = some jsonObj ∧
      checkGeneratedJSONOutputStep (.object jsonObj) 0 = some (4, 10)) ∧
    (∃ text jsonObj, generateJSON (fun i => i) 0 10 = some text ∧
      unmarshalObject text = some jsonObj ∧
      checkGeneratedJSONOutputStep (.object jsonObj) 0 = some (0, 0)) :=
  have a := generateJSON_shape (fun i => i) 4 10 (by decide) (by decide)
    (by decide) (by decide)
  have b := generateJSON_shape (fun i => i) 0 10 (by decide) (by decide)
    (by decide) (by decide)
  ⟨by
    obtain ⟨text, jsonObj, h1, h2, h3, _⟩ := a
    exact ⟨text, jsonObj, h1, h2, h3 jsonObj (List.Perm.refl _)⟩,
   by
    obtain ⟨text, jsonObj, h1, h2, h3, _⟩ := b
    exact ⟨text, jsonObj, h1, h2, h3 jsonObj (List.Perm.refl _)⟩⟩

end IspClouds
